import Mathlib

/-!
Verification of the `NaiveBayes` classifier from `scripts/preprocessing.ipynb`.

The Python class keeps five attributes:
  * `class_prior`       : dict from label to probability (insertion-ordered);
  * `likelihood`        : defaultdict from label to an inner dict from
                          vocabulary index to probability (after `train` the
                          inner dicts are plain dicts produced by a dict
                          comprehension; before that they are defaultdicts
                          with default value 0);
  * `classes`           : `np.unique(Y)`, the sorted distinct labels;
  * `class_word_counts` : defaultdict from label to total token count;
  * `vocab_size`        : number of columns of the training matrix.

The embedding models dicts as insertion-ordered association lists
(`dictSet` updates an existing key in place and appends a fresh key, exactly
as Python 3.7+ dicts do), labels as `Int`, counts as `Nat`, and float
probabilities as exact rationals `ℚ`.  The log-space accumulation
`log_prob += np.log(...)` of `predict` is represented in product space
(`p * v` instead of `log p + log v`), which induces the same comparisons
because `Real.log` is strictly monotone on the positives; the connection to
actual logarithms is proved where a claim speaks about log-space scores.
Python exceptions (`IndexError` from boolean-mask indexing with a mask whose
length differs from the row count, `KeyError` from a missing key of a plain
dict, `ValueError` from `max` of an empty dict) are modelled with `Except`.
For an empty matrix the column count `X.shape[1]` is taken as 0.
-/

namespace NLP

/-- The builtin Python exceptions the notebook code can actually raise. -/
inductive PyErr where
  | indexError
  | keyError
  | valueError
deriving DecidableEq, Repr

/-- An inner dict of `likelihood`: its entries in insertion order, and
whether it is still a `defaultdict(lambda: 0)` (true before the dict
comprehension of `train` replaces it by a plain dict). -/
structure InnerDict where
  entries : List (Nat × ℚ)
  isDefault : Bool
deriving DecidableEq, Repr

/-- The mutable state of a `NaiveBayes` instance. -/
structure NaiveBayes where
  class_prior : List (Int × ℚ)
  likelihood : List (Int × InnerDict)
  classes : List Int
  class_word_counts : List (Int × Nat)
  vocab_size : Nat
deriving DecidableEq, Repr

instance {e a : Type} [DecidableEq e] [DecidableEq a] : DecidableEq (Except e a) := fun x y =>
  match x, y with
  | .ok v, .ok w => decidable_of_iff (v = w) (by simp)
  | .error v, .error w => decidable_of_iff (v = w) (by simp)
  | .ok _, .error _ => isFalse (by simp)
  | .error _, .ok _ => isFalse (by simp)

/-- Python dict lookup `d[k]` (as an `Option`, without default semantics). -/
def dictFind {α β : Type} [DecidableEq α] : List (α × β) → α → Option β
  | [], _ => none
  | (k, v) :: rest, a => if k = a then some v else dictFind rest a

/-- Python dict assignment `d[k] = v`: update in place if the key exists,
append at the end otherwise (insertion order of Python 3.7+ dicts). -/
def dictSet {α β : Type} [DecidableEq α] : List (α × β) → α → β → List (α × β)
  | [], a, b => [(a, b)]
  | (k, v) :: rest, a, b => if k = a then (a, b) :: rest else (k, v) :: dictSet rest a b

/-- Insert a label into a sorted duplicate-free list, keeping it sorted and
duplicate-free. -/
def insertUnique (x : Int) : List Int → List Int
  | [] => [x]
  | y :: ys => if x < y then x :: y :: ys else if x = y then y :: ys else y :: insertUnique x ys

/-- `np.unique`: the distinct values of the list, sorted ascending. -/
def npUnique (l : List Int) : List Int := l.foldr insertUnique []

/-- `X[Y == c]`: the rows of `X` whose parallel label is `c` (defined for
equal lengths; `train` raises `IndexError` before using it otherwise). -/
def classSlice (X : List (List Nat)) (Y : List Int) (c : Int) : List (List Nat) :=
  (X.zip Y).filterMap (fun p => if p.2 = c then some p.1 else none)

/-- `np.sum(class_sample[:, j])`: the sum of column `j` over the rows. -/
def rawCount (rows : List (List Nat)) (j : Nat) : Nat :=
  (rows.map (fun r => r.getD j 0)).sum

/-- `np.sum(class_sample)`: the sum of all entries of the rows. -/
def sliceTotal (rows : List (List Nat)) : Nat :=
  (rows.map List.sum).sum

/-- `self.likelihood[c][w] = v`: the outer defaultdict materialises a fresh
inner defaultdict when `c` is absent, then the inner dict stores `v` at `w`. -/
def likSetItem (lik : List (Int × InnerDict)) (c : Int) (w : Nat) (v : ℚ) :
    List (Int × InnerDict) :=
  match dictFind lik c with
  | some inner => dictSet lik c ⟨dictSet inner.entries w v, inner.isDefault⟩
  | none => lik ++ [(c, ⟨[(w, v)], true⟩)]

/-- The body of the second `for c in self.classes` loop of `train`: tally
`class_word_counts[c]`, store the smoothed numerators `raw + 1` for every
vocabulary index, then normalise with the dict comprehension (which reads
`self.likelihood[c]` — materialising an empty inner dict when `V = 0` left
it absent — and replaces it by a plain dict). -/
def trainClass (X : List (List Nat)) (Y : List Int) (V : Nat)
    (acc : List (Int × Nat) × List (Int × InnerDict)) (c : Int) :
    List (Int × Nat) × List (Int × InnerDict) :=
  let class_sample := classSlice X Y c
  let total := sliceTotal class_sample
  let cwc := dictSet acc.1 c total
  let lik := (List.range V).foldl
    (fun lik w => likSetItem lik c w ((rawCount class_sample w : ℚ) + 1)) acc.2
  let inner := (dictFind lik c).getD ⟨[], true⟩
  let lik := dictSet lik c
    ⟨inner.entries.map (fun p => (p.1, p.2 / ((total : ℚ) + (V : ℚ)))), false⟩
  (cwc, lik)

/-- `NaiveBayes.train(X, Y)`.  `classes := np.unique(Y)`;
`vocab_size := X.shape[1]`; the first loop stores
`class_prior[c] = np.mean(Y == c)`; the second loop raises `IndexError` at
`X[Y == c]` when the boolean mask `Y == c` has a length different from the
row count of `X` (which happens exactly when some class exists, i.e. `Y` is
non-empty, and the lengths differ); otherwise it tallies counts and smoothed
likelihoods per class.  Stale entries of `class_prior`, `likelihood` and
`class_word_counts` from an earlier call are kept: the dicts are only ever
written through, never cleared. -/
def NaiveBayes.train (st : NaiveBayes) (X : List (List Nat)) (Y : List Int) :
    Except PyErr NaiveBayes :=
  let classes := npUnique Y
  let vocab_size := X.headI.length
  let class_prior := classes.foldl
    (fun m c => dictSet m c ((Y.countP (fun y => y = c) : ℚ) / (Y.length : ℚ)))
    st.class_prior
  if classes ≠ [] ∧ X.length ≠ Y.length then .error .indexError
  else
    let p := classes.foldl (trainClass X Y vocab_size) (st.class_word_counts, st.likelihood)
    .ok { class_prior := class_prior, likelihood := p.2, classes := classes,
          class_word_counts := p.1, vocab_size := vocab_size }

/-- `self.likelihood[c][w]` inside `predict`: a missing outer key
materialises an inner defaultdict and yields its default 0 (the probability
whose logarithm Python would take as `-inf`, i.e. the factor 0 in product
space); a missing inner key yields 0 when the inner dict is still a
defaultdict (inserting the entry) and raises `KeyError` when it is a plain
dict produced by `train`. -/
def likGetItem (lik : List (Int × InnerDict)) (c : Int) (w : Nat) :
    List (Int × InnerDict) × Except PyErr ℚ :=
  match dictFind lik c with
  | some inner =>
    match dictFind inner.entries w with
    | some v => (lik, .ok v)
    | none =>
      if inner.isDefault then
        (dictSet lik c ⟨dictSet inner.entries w 0, inner.isDefault⟩, .ok 0)
      else (lik, .error .keyError)
  | none => (lik ++ [(c, ⟨[(w, 0)], true⟩)], .ok 0)

/-- The `for word_idx in range(len(x))` loop of `predict` for one class:
for every index with `x[word_idx] > 0` multiply in the stored likelihood
(the product-space form of `log_prob += np.log(...)`). -/
def scoreLoop (x : List Nat) (c : Int) :
    List Nat → List (Int × InnerDict) → ℚ → List (Int × InnerDict) × Except PyErr ℚ
  | [], lik, p => (lik, .ok p)
  | w :: ws, lik, p =>
    if 0 < x.getD w 0 then
      match likGetItem lik c w with
      | (lik2, .ok v) => scoreLoop x c ws lik2 (p * v)
      | (lik2, .error e) => (lik2, .error e)
    else scoreLoop x c ws lik p

/-- The `for c in self.class_prior` loop of `predict`: build `class_probs`
in the iteration order of `class_prior`, starting each score from the prior
(product-space form of `log_prob = np.log(self.class_prior[c])`). -/
def classProbsLoop (x : List Nat) :
    List (Int × ℚ) → List (Int × InnerDict) →
    List (Int × InnerDict) × Except PyErr (List (Int × ℚ))
  | [], lik => (lik, .ok [])
  | (c, pr) :: rest, lik =>
    match scoreLoop x c (List.range x.length) lik pr with
    | (lik2, .ok s) =>
      match classProbsLoop x rest lik2 with
      | (lik3, .ok tl) => (lik3, .ok ((c, s) :: tl))
      | (lik3, .error e) => (lik3, .error e)
    | (lik2, .error e) => (lik2, .error e)

/-- The scan of Python's `max`: keep the current best, replace it only on a
strictly greater value. -/
def argmaxGo (c : Int) (v : ℚ) : List (Int × ℚ) → Int
  | [] => c
  | (c2, v2) :: rest => if v < v2 then argmaxGo c2 v2 rest else argmaxGo c v rest

/-- `max(class_probs, key=class_probs.get)`: the first key attaining the
maximal value, `ValueError` on an empty dict. -/
def firstArgmax : List (Int × ℚ) → Except PyErr Int
  | [] => .error .valueError
  | (c, v) :: rest => .ok (argmaxGo c v rest)

/-- The `for x in X` loop of `predict`, threading the `likelihood` state
(the defaultdict can be mutated by lookups). -/
def predictLoop (prior : List (Int × ℚ)) :
    List (List Nat) → List (Int × InnerDict) →
    List (Int × InnerDict) × Except PyErr (List Int)
  | [], lik => (lik, .ok [])
  | x :: xs, lik =>
    match classProbsLoop x prior lik with
    | (lik2, .ok probs) =>
      match firstArgmax probs with
      | .ok label =>
        match predictLoop prior xs lik2 with
        | (lik3, .ok rest) => (lik3, .ok (label :: rest))
        | (lik3, .error e) => (lik3, .error e)
      | .error e => (lik2, .error e)
    | (lik2, .error e) => (lik2, .error e)

/-- `NaiveBayes.predict(X)`: one label per row, and the (possibly mutated)
state the instance is left in. -/
def NaiveBayes.predict (st : NaiveBayes) (X : List (List Nat)) :
    NaiveBayes × Except PyErr (List Int) :=
  let p := predictLoop st.class_prior X st.likelihood
  ({ st with likelihood := p.1 }, p.2)

/-- `NaiveBayes.__init__`: empty dicts, empty class list, vocabulary size 0. -/
def NaiveBayes.init : NaiveBayes :=
  { class_prior := [], likelihood := [], classes := [], class_word_counts := [],
    vocab_size := 0 }


/-! ### Association-list (Python dict) lemmas -/

theorem dictFind_dictSet_self {α β : Type} [DecidableEq α] (m : List (α × β)) (k : α) (v : β) :
    dictFind (dictSet m k v) k = some v := by
  induction m with
  | nil => simp [dictFind, dictSet]
  | cons p rest ih =>
    obtain ⟨a, b⟩ := p
    by_cases h : a = k
    · simp [dictFind, dictSet, h]
    · simp [dictFind, dictSet, h, ih]

theorem dictFind_dictSet_ne {α β : Type} [DecidableEq α] (m : List (α × β)) (k a : α) (v : β)
    (h : k ≠ a) : dictFind (dictSet m k v) a = dictFind m a := by
  induction m with
  | nil => simp [dictFind, dictSet, h]
  | cons p rest ih =>
    obtain ⟨a2, b2⟩ := p
    by_cases h2 : a2 = k
    · subst h2
      simp [dictFind, dictSet, h]
    · simp [dictFind, dictSet, h2, ih]

theorem dictSet_dictSet_same {α β : Type} [DecidableEq α] (m : List (α × β)) (k : α) (v w : β) :
    dictSet (dictSet m k v) k w = dictSet m k w := by
  induction m with
  | nil => simp [dictSet]
  | cons p rest ih =>
    obtain ⟨a, b⟩ := p
    by_cases h : a = k
    · simp [dictSet, h]
    · simp [dictSet, h, ih]

theorem dictSet_cons_ne {α β : Type} [DecidableEq α] (m : List (α × β)) (k a : α) (b : β) (v : β)
    (h : k ≠ a) : dictSet ((k, b) :: m) a v = (k, b) :: dictSet m a v := by
  simp [dictSet, h]

theorem dictFind_cons_ne {α β : Type} [DecidableEq α] (m : List (α × β)) (k a : α) (b : β)
    (h : k ≠ a) : dictFind ((k, b) :: m) a = dictFind m a := by
  simp [dictFind, h]

theorem dictSet_fresh_append {α β : Type} [DecidableEq α] (m : List (α × β)) (k : α) (v : β)
    (h : dictFind m k = none) : dictSet m k v = m ++ [(k, v)] := by
  induction m with
  | nil => simp [dictSet]
  | cons p rest ih =>
    obtain ⟨a, b⟩ := p
    by_cases h2 : a = k
    · simp [dictFind, h2] at h
    · simp only [dictFind, if_neg h2] at h
      simp [dictSet, h2, ih h]

theorem dictFind_append_right_self {α β : Type} [DecidableEq α] (m : List (α × β)) (k : α) (v : β)
    (h : dictFind m k = none) : dictFind (m ++ [(k, v)]) k = some v := by
  induction m with
  | nil => simp [dictFind]
  | cons p rest ih =>
    obtain ⟨a, b⟩ := p
    by_cases h2 : a = k
    · simp [dictFind, h2] at h
    · simp only [dictFind, if_neg h2] at h
      simp [dictFind, h2, ih h]

theorem dictFind_append_right_ne {α β : Type} [DecidableEq α] (m : List (α × β)) (k a : α) (v : β)
    (h : dictFind m a = none) (hk : k ≠ a) : dictFind (m ++ [(k, v)]) a = none := by
  induction m with
  | nil => simp [dictFind, hk]
  | cons p rest ih =>
    obtain ⟨a2, b2⟩ := p
    by_cases h2 : a2 = a
    · simp [dictFind, h2] at h
    · simp only [dictFind, if_neg h2] at h
      simp [dictFind, h2, ih h]

theorem dictSet_append_update {α β : Type} [DecidableEq α] (m : List (α × β)) (k : α) (v w : β)
    (h : dictFind m k = none) : dictSet (m ++ [(k, v)]) k w = m ++ [(k, w)] := by
  induction m with
  | nil => simp [dictSet]
  | cons p rest ih =>
    obtain ⟨a, b⟩ := p
    by_cases h2 : a = k
    · simp [dictFind, h2] at h
    · simp only [dictFind, if_neg h2] at h
      simp [dictSet, h2, ih h]

/-- Folding dict assignments over fresh, pairwise-distinct keys appends the
corresponding entries in order. -/
theorem foldl_dictSet_fresh {α β : Type} [DecidableEq α] (f : α → β) :
    ∀ (cs : List α) (m : List (α × β)), cs.Nodup → (∀ c ∈ cs, dictFind m c = none) →
      List.foldl (fun m c => dictSet m c (f c)) m cs = m ++ cs.map (fun c => (c, f c)) := by
  intro cs
  induction cs with
  | nil => intro m _ _; simp
  | cons c rest ih =>
    intro m hnd hf
    have hc : dictFind m c = none := hf c (by simp)
    have hstep : dictSet m c (f c) = m ++ [(c, f c)] := dictSet_fresh_append m c (f c) hc
    have hrest : ∀ a ∈ rest, dictFind (m ++ [(c, f c)]) a = none := by
      intro a ha
      have hne : c ≠ a := by
        intro hEq
        exact (List.nodup_cons.mp hnd).1 (hEq ▸ ha)
      exact dictFind_append_right_ne m c a (f c) (hf a (by simp [ha])) hne
    calc List.foldl (fun m c => dictSet m c (f c)) m (c :: rest)
        = List.foldl (fun m c => dictSet m c (f c)) (m ++ [(c, f c)]) rest := by
          simp [List.foldl_cons, hstep]
      _ = (m ++ [(c, f c)]) ++ rest.map (fun c => (c, f c)) :=
          ih (m ++ [(c, f c)]) (List.nodup_cons.mp hnd).2 hrest
      _ = m ++ (c :: rest).map (fun c => (c, f c)) := by simp

theorem foldl_dictSet_cons_ne {α β : Type} [DecidableEq α] (f : α → β) (k : α) (b : β) :
    ∀ (cs : List α) (m : List (α × β)), (∀ c ∈ cs, c ≠ k) →
      List.foldl (fun m c => dictSet m c (f c)) ((k, b) :: m) cs =
        (k, b) :: List.foldl (fun m c => dictSet m c (f c)) m cs := by
  intro cs
  induction cs with
  | nil => intro m _; simp
  | cons c rest ih =>
    intro m hne
    have h1 : k ≠ c := fun hEq => (hne c (by simp)) hEq.symm
    simp only [List.foldl_cons, dictSet_cons_ne m k c b (f c) h1]
    exact ih (dictSet m c (f c)) (fun a ha => hne a (by simp [ha]))

/-- Folding dict assignments over the exact key list of the dict updates
every value in place. -/
theorem foldl_dictSet_update {α β : Type} [DecidableEq α] (f g : α → β) :
    ∀ (cs : List α), cs.Nodup →
      List.foldl (fun m c => dictSet m c (f c)) (cs.map (fun c => (c, g c))) cs =
        cs.map (fun c => (c, f c)) := by
  intro cs
  induction cs with
  | nil => simp
  | cons c rest ih =>
    intro hnd
    have hne : ∀ a ∈ rest, a ≠ c := fun a ha hEq =>
      (List.nodup_cons.mp hnd).1 (hEq ▸ ha)
    simp only [List.map_cons, List.foldl_cons]
    have hset : dictSet ((c, g c) :: rest.map (fun a => (a, g a))) c (f c) =
        (c, f c) :: rest.map (fun a => (a, g a)) := by
      simp [dictSet]
    rw [hset, foldl_dictSet_cons_ne f c (f c) rest (rest.map (fun a => (a, g a))) hne]
    rw [ih (List.nodup_cons.mp hnd).2]

/-- Lookup in a key-tagged map of a duplicate-free list. -/
theorem dictFind_map_self {β : Type} (f : Int → β) :
    ∀ (u : List Int), u.Nodup → ∀ c ∈ u, dictFind (u.map (fun c => (c, f c))) c = some (f c) := by
  intro u
  induction u with
  | nil => intro _ c hc; simp at hc
  | cons a rest ih =>
    intro hnd c hc
    rcases List.mem_cons.mp hc with h | h
    · subst h
      simp [dictFind]
    · have hne : a ≠ c := fun hEq => (List.nodup_cons.mp hnd).1 (hEq ▸ h)
      simp only [List.map_cons, dictFind, if_neg hne]
      exact ih (List.nodup_cons.mp hnd).2 c h

theorem dictFind_map_nat_self {β : Type} (f : Nat → β) :
    ∀ (u : List Nat), u.Nodup → ∀ c ∈ u, dictFind (u.map (fun c => (c, f c))) c = some (f c) := by
  intro u
  induction u with
  | nil => intro _ c hc; simp at hc
  | cons a rest ih =>
    intro hnd c hc
    rcases List.mem_cons.mp hc with h | h
    · subst h
      simp [dictFind]
    · have hne : a ≠ c := fun hEq => (List.nodup_cons.mp hnd).1 (hEq ▸ h)
      simp only [List.map_cons, dictFind, if_neg hne]
      exact ih (List.nodup_cons.mp hnd).2 c h

/-! ### `np.unique` lemmas -/

theorem mem_insertUnique (x : Int) (l : List Int) (a : Int) :
    a ∈ insertUnique x l ↔ a = x ∨ a ∈ l := by
  induction l with
  | nil => simp [insertUnique]
  | cons y ys ih =>
    by_cases h1 : x < y
    · simp [insertUnique, h1]
    · by_cases h2 : x = y
      · subst h2
        simp only [insertUnique, if_neg h1, if_pos rfl]
        constructor
        · intro h; exact Or.inr h
        · intro h; rcases h with h | h
          · simp [h]
          · exact h
      · simp only [insertUnique, if_neg h1, if_neg h2, List.mem_cons, ih]
        tauto

theorem sorted_insertUnique (x : Int) (l : List Int) (h : List.Sorted (· < ·) l) :
    List.Sorted (· < ·) (insertUnique x l) := by
  induction l with
  | nil => simp [insertUnique]
  | cons y ys ih =>
    rcases List.sorted_cons.mp h with ⟨hy, hys⟩
    by_cases h1 : x < y
    · simp only [insertUnique, if_pos h1]
      refine List.sorted_cons.mpr ⟨?_, h⟩
      intro b hb
      rcases List.mem_cons.mp hb with hb | hb
      · exact hb ▸ h1
      · exact lt_trans h1 (hy b hb)
    · by_cases h2 : x = y
      · simpa [insertUnique, if_neg h1, h2] using h
      · have hyx : y < x := by omega
        simp only [insertUnique, if_neg h1, if_neg h2]
        refine List.sorted_cons.mpr ⟨?_, ih hys⟩
        intro b hb
        rcases (mem_insertUnique x ys b).mp hb with hb | hb
        · exact hb ▸ hyx
        · exact hy b hb

theorem npUnique_sorted (l : List Int) : List.Sorted (· < ·) (npUnique l) := by
  induction l with
  | nil => simp [npUnique]
  | cons y ys ih => exact sorted_insertUnique y (npUnique ys) ih

theorem npUnique_nodup (l : List Int) : (npUnique l).Nodup :=
  (npUnique_sorted l).nodup

theorem mem_npUnique (l : List Int) (a : Int) : a ∈ npUnique l ↔ a ∈ l := by
  induction l with
  | nil => simp [npUnique]
  | cons y ys ih =>
    show a ∈ insertUnique y (npUnique ys) ↔ _
    rw [mem_insertUnique, ih]
    simp

theorem insertUnique_ne_nil (x : Int) (l : List Int) : insertUnique x l ≠ [] := by
  cases l with
  | nil => simp [insertUnique]
  | cons y ys =>
    by_cases h1 : x < y
    · simp [insertUnique, h1]
    · by_cases h2 : x = y
      · simp [insertUnique, h1, h2]
      · simp [insertUnique, h1, h2]

theorem npUnique_eq_nil_iff (l : List Int) : npUnique l = [] ↔ l = [] := by
  cases l with
  | nil => simp [npUnique]
  | cons y ys =>
    simp only [npUnique, List.foldr_cons]
    constructor
    · intro h
      exact absurd h (insertUnique_ne_nil y _)
    · intro h
      simp at h


/-! ### Closed form of a freshly trained model -/

/-- `np.mean(Y == c)`: the class prior computed by `train`. -/
def priorOf (Y : List Int) (c : Int) : ℚ :=
  (Y.countP (fun y => y = c) : ℚ) / (Y.length : ℚ)

/-- `class_word_counts[c]`: total token count of the class slice. -/
def classTermTotal (X : List (List Nat)) (Y : List Int) (c : Int) : Nat :=
  sliceTotal (classSlice X Y c)

/-- The smoothed likelihood `train` stores for class `c` and index `w`. -/
def likOf (X : List (List Nat)) (Y : List Int) (V : Nat) (c : Int) (w : Nat) : ℚ :=
  ((rawCount (classSlice X Y c) w : ℚ) + 1) / ((classTermTotal X Y c : ℚ) + (V : ℚ))

/-- The inner likelihood dict `train` leaves behind for class `c`. -/
def targetInner (X : List (List Nat)) (Y : List Int) (V : Nat) (c : Int) : InnerDict :=
  ⟨(List.range V).map (fun w => (w, likOf X Y V c w)), false⟩

/-- The state a fresh instance is in after `train(X, Y)` succeeds. -/
def trainedModel (X : List (List Nat)) (Y : List Int) : NaiveBayes :=
  { class_prior := (npUnique Y).map (fun c => (c, priorOf Y c))
    likelihood := (npUnique Y).map (fun c => (c, targetInner X Y X.headI.length c))
    classes := npUnique Y
    class_word_counts := (npUnique Y).map (fun c => (c, classTermTotal X Y c))
    vocab_size := X.headI.length }

theorem dictSet_self_of_find {α β : Type} [DecidableEq α] (m : List (α × β)) (k : α) (v : β)
    (h : dictFind m k = some v) : dictSet m k v = m := by
  induction m with
  | nil => simp [dictFind] at h
  | cons p rest ih =>
    obtain ⟨a, b⟩ := p
    by_cases h2 : a = k
    · subst h2
      have h3 : b = v := by simpa [dictFind] using h
      simp [dictSet, h3]
    · simp only [dictFind, if_neg h2] at h
      simp [dictSet, h2, ih h]

theorem likSetItem_fold_found (c : Int) (f : Nat → ℚ) :
    ∀ (ws : List Nat) (lik : List (Int × InnerDict)) (es : List (Nat × ℚ)) (b : Bool),
      dictFind lik c = some ⟨es, b⟩ →
      List.foldl (fun l w => likSetItem l c w (f w)) lik ws =
        dictSet lik c ⟨List.foldl (fun es w => dictSet es w (f w)) es ws, b⟩ := by
  intro ws
  induction ws with
  | nil =>
    intro lik es b h
    simp [dictSet_self_of_find lik c ⟨es, b⟩ h]
  | cons w ws2 ih =>
    intro lik es b h
    have h1 : likSetItem lik c w (f w) = dictSet lik c ⟨dictSet es w (f w), b⟩ := by
      simp [likSetItem, h]
    have h2 : dictFind (dictSet lik c ⟨dictSet es w (f w), b⟩) c =
        some ⟨dictSet es w (f w), b⟩ := dictFind_dictSet_self _ _ _
    rw [List.foldl_cons, h1, ih _ _ _ h2, dictSet_dictSet_same, List.foldl_cons]

theorem likSetItem_fold_fresh (c : Int) (f : Nat → ℚ) (ws : List Nat)
    (lik : List (Int × InnerDict)) (h : dictFind lik c = none) (hnd : ws.Nodup)
    (hne : ws ≠ []) :
    List.foldl (fun l w => likSetItem l c w (f w)) lik ws =
      lik ++ [(c, ⟨ws.map (fun w => (w, f w)), true⟩)] := by
  cases ws with
  | nil => exact absurd rfl hne
  | cons w ws2 =>
    have h1 : likSetItem lik c w (f w) = lik ++ [(c, ⟨[(w, f w)], true⟩)] := by
      simp [likSetItem, h]
    have h2 : dictFind (lik ++ [(c, (⟨[(w, f w)], true⟩ : InnerDict))]) c =
        some ⟨[(w, f w)], true⟩ := dictFind_append_right_self _ _ _ h
    rw [List.foldl_cons, h1, likSetItem_fold_found c f ws2 _ _ _ h2]
    have h3 : List.foldl (fun es w => dictSet es w (f w)) [(w, f w)] ws2 =
        [(w, f w)] ++ ws2.map (fun w => (w, f w)) := by
      apply foldl_dictSet_fresh f ws2 [(w, f w)] (List.nodup_cons.mp hnd).2
      intro a ha
      have hne2 : w ≠ a := fun hEq => (List.nodup_cons.mp hnd).1 (hEq ▸ ha)
      simp [dictFind, hne2]
    rw [h3, dictSet_append_update lik c _ _ h]
    simp

theorem trainClass_fresh (X : List (List Nat)) (Y : List Int) (V : Nat)
    (cwc : List (Int × Nat)) (lik : List (Int × InnerDict)) (c : Int)
    (hc : dictFind cwc c = none) (hl : dictFind lik c = none) :
    trainClass X Y V (cwc, lik) c =
      (cwc ++ [(c, classTermTotal X Y c)], lik ++ [(c, targetInner X Y V c)]) := by
  have hcwc : dictSet cwc c (sliceTotal (classSlice X Y c)) =
      cwc ++ [(c, classTermTotal X Y c)] := dictSet_fresh_append _ _ _ hc
  cases V with
  | zero =>
    simp only [trainClass, List.range_zero, List.foldl_nil, hl, Option.getD_none]
    rw [hcwc, dictSet_fresh_append _ _ _ hl]
    simp [targetInner]
  | succ n =>
    have hfold := likSetItem_fold_fresh c
      (fun w => ((rawCount (classSlice X Y c) w : ℚ) + 1)) (List.range (n + 1)) lik hl
      (List.nodup_range _) (by simp)
    simp only [trainClass, hfold]
    rw [hcwc, dictFind_append_right_self _ _ _ hl]
    rw [dictSet_append_update lik c _ _ hl]
    simp only [Option.getD_some, List.map_map]
    simp [targetInner, likOf, classTermTotal]

theorem trainFold_fresh (X : List (List Nat)) (Y : List Int) (V : Nat) :
    ∀ (cs : List Int) (cwc : List (Int × Nat)) (lik : List (Int × InnerDict)), cs.Nodup →
      (∀ c ∈ cs, dictFind cwc c = none) → (∀ c ∈ cs, dictFind lik c = none) →
      List.foldl (trainClass X Y V) (cwc, lik) cs =
        (cwc ++ cs.map (fun c => (c, classTermTotal X Y c)),
         lik ++ cs.map (fun c => (c, targetInner X Y V c))) := by
  intro cs
  induction cs with
  | nil => intro cwc lik _ _ _; simp
  | cons c rest ih =>
    intro cwc lik hnd hc hl
    rw [List.foldl_cons, trainClass_fresh X Y V cwc lik c (hc c (by simp)) (hl c (by simp))]
    rw [ih (cwc ++ [(c, classTermTotal X Y c)]) (lik ++ [(c, targetInner X Y V c)])
      (List.nodup_cons.mp hnd).2
      (fun a ha => dictFind_append_right_ne cwc c a _ (hc a (by simp [ha]))
        (fun hEq => (List.nodup_cons.mp hnd).1 (hEq ▸ ha)))
      (fun a ha => dictFind_append_right_ne lik c a _ (hl a (by simp [ha]))
        (fun hEq => (List.nodup_cons.mp hnd).1 (hEq ▸ ha)))]
    simp

/-- A fresh instance that trains without hitting the boolean-mask
`IndexError` ends in exactly the closed-form state. -/
theorem train_init_eq (X : List (List Nat)) (Y : List Int)
    (h : ¬(npUnique Y ≠ [] ∧ X.length ≠ Y.length)) :
    NaiveBayes.init.train X Y = .ok (trainedModel X Y) := by
  have hprior : List.foldl
      (fun m c => dictSet m c ((Y.countP (fun y => y = c) : ℚ) / (Y.length : ℚ)))
      NaiveBayes.init.class_prior (npUnique Y) =
      (npUnique Y).map (fun c => (c, priorOf Y c)) := by
    have := foldl_dictSet_fresh (fun c => priorOf Y c) (npUnique Y) []
      (npUnique_nodup Y) (fun c _ => rfl)
    simpa [priorOf, NaiveBayes.init] using this
  have hfold := trainFold_fresh X Y X.headI.length (npUnique Y) [] []
    (npUnique_nodup Y) (fun c _ => rfl) (fun c _ => rfl)
  simp only [NaiveBayes.train, NaiveBayes.init] at *
  rw [if_neg h]
  simp only [hprior, hfold]
  simp [trainedModel, NaiveBayes.init, hprior]


/-! ### Counting and summation lemmas -/

theorem list_sum_map_add {α M : Type} [AddCommMonoid M] (f g : α → M) (l : List α) :
    (l.map (fun a => f a + g a)).sum = (l.map f).sum + (l.map g).sum := by
  induction l with
  | nil => simp
  | cons a l2 ih => simp [ih, add_add_add_comm]

theorem list_sum_map_div (f : Int → ℚ) (d : ℚ) (l : List Int) :
    (l.map (fun a => f a / d)).sum = (l.map f).sum / d := by
  induction l with
  | nil => simp
  | cons a l2 ih => simp [ih, add_div]

theorem list_sum_map_div_nat (f : Nat → ℚ) (d : ℚ) (l : List Nat) :
    (l.map (fun a => f a / d)).sum = (l.map f).sum / d := by
  induction l with
  | nil => simp
  | cons a l2 ih => simp [ih, add_div]

theorem sum_indicator (y : Int) :
    ∀ u : List Int, u.Nodup → y ∈ u →
      (u.map (fun c => if y = c then (1 : Nat) else 0)).sum = 1 := by
  intro u
  induction u with
  | nil => intro _ h; simp at h
  | cons a rest ih =>
    intro hnd hy
    by_cases h : y = a
    · subst h
      have hrest : (rest.map (fun c => if y = c then (1 : Nat) else 0)).sum = 0 := by
        apply List.sum_eq_zero
        intro n hn
        rcases List.mem_map.mp hn with ⟨c, hc, hcn⟩
        have : y ≠ c := fun hEq => (List.nodup_cons.mp hnd).1 (hEq ▸ hc)
        simp [this] at hcn
        omega
      simp [hrest]
    · have hy2 : y ∈ rest := by
        rcases List.mem_cons.mp hy with h2 | h2
        · exact absurd h2 h
        · exact h2
      simp [h, ih (List.nodup_cons.mp hnd).2 hy2]

theorem sum_countP (u : List Int) (hnd : u.Nodup) :
    ∀ Y : List Int, (∀ y ∈ Y, y ∈ u) →
      (u.map (fun c => Y.countP (fun y => y = c))).sum = Y.length := by
  intro Y
  induction Y with
  | nil =>
    intro _
    have : ∀ n ∈ u.map (fun c => List.countP (fun y => decide (y = c)) []), n = 0 := by
      intro n hn
      rcases List.mem_map.mp hn with ⟨c, _, hcn⟩
      simp [List.countP_nil] at hcn
      omega
    simp [List.sum_eq_zero this]
  | cons y Y2 ih =>
    intro hm
    have hcount : ∀ c : Int, (y :: Y2).countP (fun a => a = c) =
        Y2.countP (fun a => a = c) + (if y = c then 1 else 0) := by
      intro c
      by_cases h : y = c
      · simp [List.countP_cons, h]
      · simp [List.countP_cons, h]
    have hmap : u.map (fun c => (y :: Y2).countP (fun a => a = c)) =
        u.map (fun c => Y2.countP (fun a => a = c) + (if y = c then 1 else 0)) := by
      apply List.map_congr_left
      intro c _
      exact hcount c
    rw [hmap, list_sum_map_add, ih (fun a ha => hm a (by simp [ha])),
      sum_indicator y u hnd (hm y (by simp))]
    simp [List.length_cons]

theorem sum_getD_range (r : List Nat) :
    ((List.range r.length).map (fun w => r.getD w 0)).sum = r.sum := by
  induction r with
  | nil => simp
  | cons a r2 ih =>
    rw [List.length_cons, List.range_succ_eq_map]
    simp only [List.map_cons, List.map_map, Function.comp_def, List.getD_cons_zero,
      List.getD_cons_succ, List.sum_cons]
    rw [ih]

theorem getD_le_sum (r : List Nat) (w : Nat) : r.getD w 0 ≤ r.sum := by
  induction r generalizing w with
  | nil => simp
  | cons a r2 ih =>
    cases w with
    | zero => simp
    | succ w2 =>
      calc r2.getD w2 0 ≤ r2.sum := ih w2
        _ ≤ a + r2.sum := Nat.le_add_left _ _

theorem rawCount_le_sliceTotal (rows : List (List Nat)) (w : Nat) :
    rawCount rows w ≤ sliceTotal rows := by
  induction rows with
  | nil => simp [rawCount, sliceTotal]
  | cons r rows2 ih =>
    have h1 : rawCount (r :: rows2) w = r.getD w 0 + rawCount rows2 w := by
      simp [rawCount]
    have h2 : sliceTotal (r :: rows2) = r.sum + sliceTotal rows2 := by
      simp [sliceTotal]
    rw [h1, h2]
    exact Nat.add_le_add (getD_le_sum r w) ih

theorem sum_rawCount (V : Nat) (rows : List (List Nat)) (hrect : ∀ r ∈ rows, r.length = V) :
    ((List.range V).map (fun w => rawCount rows w)).sum = sliceTotal rows := by
  induction rows with
  | nil =>
    have : ∀ n ∈ (List.range V).map (fun w => rawCount ([] : List (List Nat)) w), n = 0 := by
      intro n hn
      rcases List.mem_map.mp hn with ⟨w, _, hw⟩
      simp [rawCount] at hw
      omega
    simp [sliceTotal, List.sum_eq_zero this]
  | cons r rows2 ih =>
    have hmap : (List.range V).map (fun w => rawCount (r :: rows2) w) =
        (List.range V).map (fun w => r.getD w 0 + rawCount rows2 w) := by
      apply List.map_congr_left
      intro w _
      simp [rawCount]
    rw [hmap, list_sum_map_add]
    have hr : r.length = V := hrect r (by simp)
    have h1 : ((List.range V).map (fun w => r.getD w 0)).sum = r.sum := by
      rw [← hr]
      exact sum_getD_range r
    rw [h1, ih (fun a ha => hrect a (by simp [ha]))]
    simp [sliceTotal]

theorem classSlice_mem (X : List (List Nat)) (Y : List Int) (c : Int) :
    ∀ r ∈ classSlice X Y c, r ∈ X := by
  intro r hr
  rcases List.mem_filterMap.mp hr with ⟨⟨a, b⟩, hab, hft⟩
  by_cases h : b = c
  · simp only [h, if_pos rfl] at hft
    cases hft
    exact (List.of_mem_zip hab).1
  · simp [h] at hft

theorem mem_npUnique_ne_nil {Y : List Int} {c : Int} (hc : c ∈ npUnique Y) : Y ≠ [] := by
  intro h
  subst h
  simp [npUnique] at hc

/-! ### Positivity and normalisation of the stored parameters -/

theorem priorOf_pos {Y : List Int} {c : Int} (hc : c ∈ npUnique Y) :
    0 < priorOf Y c ∧ priorOf Y c ≤ 1 := by
  have hcY : c ∈ Y := (mem_npUnique Y c).mp hc
  have hlen : 0 < Y.length := List.length_pos.mpr (mem_npUnique_ne_nil hc)
  have hcount : 0 < Y.countP (fun y => y = c) := List.countP_pos_iff.mpr ⟨c, hcY, by simp⟩
  have hle : Y.countP (fun y => y = c) ≤ Y.length := List.countP_le_length _
  constructor
  · apply div_pos
    · exact_mod_cast hcount
    · exact_mod_cast hlen
  · unfold priorOf
    rw [div_le_one (by exact_mod_cast hlen)]
    exact_mod_cast hle

theorem priorOf_sum (Y : List Int) (hY : Y ≠ []) :
    ((npUnique Y).map (fun c => priorOf Y c)).sum = 1 := by
  have h1 : ((npUnique Y).map (fun c => priorOf Y c)).sum =
      ((npUnique Y).map (fun c => (Y.countP (fun y => y = c) : ℚ))).sum / (Y.length : ℚ) := by
    rw [← list_sum_map_div]
    rfl
  have h2 : ((npUnique Y).map (fun c => (Y.countP (fun y => y = c) : ℚ))).sum =
      (((npUnique Y).map (fun c => Y.countP (fun y => y = c))).sum : ℚ) := by
    rw [Nat.cast_list_sum, List.map_map]
    rfl
  have h3 := sum_countP (npUnique Y) (npUnique_nodup Y) Y
    (fun y hy => (mem_npUnique Y y).mpr hy)
  have hlen : 0 < Y.length := List.length_pos.mpr hY
  rw [h1, h2, h3, div_self]
  exact_mod_cast Nat.pos_iff_ne_zero.mp hlen


theorem likOf_pos (X : List (List Nat)) (Y : List Int) (V : Nat) (c : Int) (w : Nat)
    (hV : 1 ≤ V) : 0 < likOf X Y V c w := by
  apply div_pos
  · positivity
  · have : (0 : ℚ) < (V : ℚ) := by exact_mod_cast hV
    positivity

theorem likOf_le_one (X : List (List Nat)) (Y : List Int) (V : Nat) (c : Int) (w : Nat)
    (hV : 1 ≤ V) : likOf X Y V c w ≤ 1 := by
  unfold likOf
  have hd : (0 : ℚ) < (classTermTotal X Y c : ℚ) + (V : ℚ) := by
    have : (0 : ℚ) < (V : ℚ) := by exact_mod_cast hV
    positivity
  rw [div_le_one hd]
  have h1 : rawCount (classSlice X Y c) w ≤ classTermTotal X Y c :=
    rawCount_le_sliceTotal _ _
  have h2 : (rawCount (classSlice X Y c) w : ℚ) ≤ (classTermTotal X Y c : ℚ) := by
    exact_mod_cast h1
  have h3 : (1 : ℚ) ≤ (V : ℚ) := by exact_mod_cast hV
  linarith

theorem likOf_sum (X : List (List Nat)) (Y : List Int) (V : Nat) (c : Int)
    (hV : 1 ≤ V) (hrect : ∀ r ∈ classSlice X Y c, r.length = V) :
    ((List.range V).map (fun w => likOf X Y V c w)).sum = 1 := by
  have hd : (0 : ℚ) < (classTermTotal X Y c : ℚ) + (V : ℚ) := by
    have : (0 : ℚ) < (V : ℚ) := by exact_mod_cast hV
    positivity
  have h1 : ((List.range V).map (fun w => likOf X Y V c w)).sum =
      ((List.range V).map (fun w => (rawCount (classSlice X Y c) w : ℚ) + 1)).sum /
        ((classTermTotal X Y c : ℚ) + (V : ℚ)) := by
    rw [← list_sum_map_div_nat]
    rfl
  have h2 : ((List.range V).map (fun w => (rawCount (classSlice X Y c) w : ℚ) + 1)).sum =
      ((List.range V).map (fun w => (rawCount (classSlice X Y c) w : ℚ))).sum +
        ((List.range V).map (fun _ => (1 : ℚ))).sum := list_sum_map_add _ _ _
  have h3 : ((List.range V).map (fun w => (rawCount (classSlice X Y c) w : ℚ))).sum =
      ((classTermTotal X Y c : ℚ)) := by
    have := sum_rawCount V (classSlice X Y c) hrect
    have hcast : ((List.range V).map (fun w => (rawCount (classSlice X Y c) w : ℚ))).sum =
        (((List.range V).map (fun w => rawCount (classSlice X Y c) w)).sum : ℚ) := by
      rw [Nat.cast_list_sum, List.map_map]
      rfl
    rw [hcast, this]
    rfl
  have h4 : ((List.range V).map (fun _ => (1 : ℚ))).sum = (V : ℚ) := by
    simp
  rw [h1, h2, h3, h4, div_self (ne_of_gt hd)]


/-- A successful `train` on a fresh instance always leaves the closed-form
state (when the guard would fire, `train` returns an error instead). -/
theorem train_init_ok_eq (X : List (List Nat)) (Y : List Int) (st : NaiveBayes)
    (hok : NaiveBayes.init.train X Y = .ok st) : st = trainedModel X Y := by
  by_cases h : npUnique Y ≠ [] ∧ X.length ≠ Y.length
  · exfalso
    simp only [NaiveBayes.train, NaiveBayes.init, if_pos h] at hok
    exact Except.noConfusion hok
  · rw [train_init_eq X Y h] at hok
    exact (Except.ok.inj hok).symm

/-- Predicting with an empty `class_prior` dict on a non-empty input fails at
`max` of the empty `class_probs` dict, leaving the state untouched. -/
theorem predict_empty_prior (st : NaiveBayes) (h : st.class_prior = [])
    (X : List (List Nat)) (hX : X ≠ []) :
    st.predict X = (st, .error PyErr.valueError) := by
  cases X with
  | nil => exact absurd rfl hX
  | cons x xs =>
    show NaiveBayes.predict st (x :: xs) = (st, .error PyErr.valueError)
    simp only [NaiveBayes.predict, predictLoop, h, classProbsLoop, firstArgmax]
    rw [← h]


/-! ### Evaluating `predict` on a trained model -/

/-- The indices `predict` accumulates a likelihood for: positions of `x`
holding a strictly positive count, each exactly once. -/
def present (x : List Nat) : List Nat :=
  (List.range x.length).filter (fun w => 0 < x.getD w 0)

/-- The product-space score `predict` assigns to class `c` on row `x`
against a freshly trained model (prior times one likelihood factor per
strictly-positive position). -/
def qScore (X : List (List Nat)) (Y : List Int) (V : Nat) (x : List Nat) (c : Int) : ℚ :=
  priorOf Y c * ((present x).map (fun w => likOf X Y V c w)).prod

theorem scoreLoop_state (x : List Nat) (c : Int) (es : List (Nat × ℚ)) :
    ∀ (ws : List Nat) (lik : List (Int × InnerDict)) (p : ℚ),
      dictFind lik c = some ⟨es, false⟩ → (scoreLoop x c ws lik p).1 = lik := by
  intro ws
  induction ws with
  | nil => intro lik p _; rfl
  | cons w ws2 ih =>
    intro lik p h
    by_cases hpos : 0 < x.getD w 0
    · cases hes : dictFind es w with
      | some v =>
        have hget : likGetItem lik c w = (lik, .ok v) := by
          simp [likGetItem, h, hes]
        simp only [scoreLoop]
        rw [if_pos hpos, hget]
        exact ih lik (p * v) h
      | none =>
        have hget : likGetItem lik c w = (lik, .error PyErr.keyError) := by
          simp [likGetItem, h, hes]
        simp only [scoreLoop]
        rw [if_pos hpos, hget]
    · simp only [scoreLoop]
      rw [if_neg hpos]
      exact ih lik p h

theorem scoreLoop_eval (x : List Nat) (c : Int) (es : List (Nat × ℚ)) (f : Nat → ℚ) :
    ∀ (ws : List Nat) (lik : List (Int × InnerDict)) (p : ℚ),
      dictFind lik c = some ⟨es, false⟩ →
      (∀ w ∈ ws, 0 < x.getD w 0 → dictFind es w = some (f w)) →
      scoreLoop x c ws lik p =
        (lik, .ok (p * ((ws.filter (fun w => 0 < x.getD w 0)).map f).prod)) := by
  intro ws
  induction ws with
  | nil => intro lik p _ _; simp [scoreLoop]
  | cons w ws2 ih =>
    intro lik p h hv
    by_cases hpos : 0 < x.getD w 0
    · have hes : dictFind es w = some (f w) := hv w (by simp) hpos
      have hget : likGetItem lik c w = (lik, .ok (f w)) := by
        simp [likGetItem, h, hes]
      simp only [scoreLoop]
      rw [if_pos hpos, hget]
      show scoreLoop x c ws2 lik (p * f w) = _
      rw [ih lik (p * (f w)) h (fun a ha hp => hv a (by simp [ha]) hp)]
      have hfil : (w :: ws2).filter (fun w => 0 < x.getD w 0) =
          w :: ws2.filter (fun w => 0 < x.getD w 0) := by
        rw [List.filter_cons, if_pos (by simpa using hpos)]
      rw [hfil]
      simp [mul_assoc]
    · simp only [scoreLoop]
      rw [if_neg hpos]
      rw [ih lik p h (fun a ha hp => hv a (by simp [ha]) hp)]
      have hfil : (w :: ws2).filter (fun w => 0 < x.getD w 0) =
          ws2.filter (fun w => 0 < x.getD w 0) := by
        rw [List.filter_cons, if_neg (by simpa using hpos)]
      rw [hfil]

theorem classProbsLoop_eval (x : List Nat) (f : Int → Nat → ℚ) :
    ∀ (prior : List (Int × ℚ)) (lik : List (Int × InnerDict)),
      (∀ p ∈ prior, ∃ es, dictFind lik p.1 = some ⟨es, false⟩ ∧
        ∀ w ∈ List.range x.length, 0 < x.getD w 0 → dictFind es w = some (f p.1 w)) →
      classProbsLoop x prior lik =
        (lik, .ok (prior.map (fun p =>
          (p.1, p.2 * ((present x).map (f p.1)).prod)))) := by
  intro prior
  induction prior with
  | nil => intro lik _; rfl
  | cons q rest ih =>
    intro lik h
    obtain ⟨c, pr⟩ := q
    obtain ⟨es, hfind, hes⟩ := h (c, pr) (by simp)
    have hscore := scoreLoop_eval x c es (f c) (List.range x.length) lik pr hfind hes
    simp only [classProbsLoop, hscore]
    rw [ih lik (fun a ha => h a (by simp [ha]))]
    rfl

theorem classProbsLoop_state (x : List Nat) :
    ∀ (prior : List (Int × ℚ)) (lik : List (Int × InnerDict)),
      (∀ p ∈ prior, ∃ es, dictFind lik p.1 = some ⟨es, false⟩) →
      (classProbsLoop x prior lik).1 = lik := by
  intro prior
  induction prior with
  | nil => intro lik _; rfl
  | cons q rest ih =>
    intro lik h
    obtain ⟨c, pr⟩ := q
    obtain ⟨es, hfind⟩ := h (c, pr) (by simp)
    rcases hs : scoreLoop x c (List.range x.length) lik pr with ⟨lik2, r⟩
    have hlik2 : lik2 = lik := by
      have := scoreLoop_state x c es (List.range x.length) lik pr hfind
      rw [hs] at this
      exact this
    subst hlik2
    cases r with
    | ok sc =>
      rcases hrest : classProbsLoop x rest lik2 with ⟨lik3, r2⟩
      have hlik3 : lik3 = lik2 := by
        have := ih lik2 (fun a ha => h a (by simp [ha]))
        rw [hrest] at this
        exact this
      subst hlik3
      cases r2 <;> simp [classProbsLoop, hs, hrest]
    | error e => simp [classProbsLoop, hs]

theorem predictLoop_state :
    ∀ (Xp : List (List Nat)) (prior : List (Int × ℚ)) (lik : List (Int × InnerDict)),
      (∀ p ∈ prior, ∃ es, dictFind lik p.1 = some ⟨es, false⟩) →
      (predictLoop prior Xp lik).1 = lik := by
  intro Xp
  induction Xp with
  | nil => intro prior lik _; rfl
  | cons x xs ih =>
    intro prior lik h
    rcases hp : classProbsLoop x prior lik with ⟨lik2, r⟩
    have hlik2 : lik2 = lik := by
      have := classProbsLoop_state x prior lik h
      rw [hp] at this
      exact this
    subst hlik2
    cases r with
    | ok probs =>
      cases hfa : firstArgmax probs with
      | ok label =>
        rcases hrest : predictLoop prior xs lik2 with ⟨lik3, r2⟩
        have hlik3 : lik3 = lik2 := by
          have := ih prior lik2 h
          rw [hrest] at this
          exact this
        subst hlik3
        cases r2 <;> simp [predictLoop, hp, hfa, hrest]
      | error e => simp [predictLoop, hp, hfa]
    | error e => simp [predictLoop, hp]

/-- A freshly trained model satisfies the plain-inner-dict condition for
every key of its `class_prior`. -/
theorem trainedModel_prior_plain (X : List (List Nat)) (Y : List Int) :
    ∀ p ∈ (trainedModel X Y).class_prior,
      ∃ es, dictFind (trainedModel X Y).likelihood p.1 = some ⟨es, false⟩ := by
  intro p hp
  rcases List.mem_map.mp hp with ⟨c, hc, hcp⟩
  have := dictFind_map_self (fun c => targetInner X Y X.headI.length c) (npUnique Y)
    (npUnique_nodup Y) c hc
  refine ⟨(targetInner X Y X.headI.length c).entries, ?_⟩
  rw [← hcp]
  simpa [targetInner] using this

/-- `predict` never mutates a freshly trained model, whatever the input. -/
theorem predict_trained_state (X : List (List Nat)) (Y : List Int)
    (Xp : List (List Nat)) :
    ((trainedModel X Y).predict Xp).1 = trainedModel X Y := by
  have h := predictLoop_state Xp (trainedModel X Y).class_prior
    (trainedModel X Y).likelihood (trainedModel_prior_plain X Y)
  show ({ trainedModel X Y with
    likelihood := (predictLoop (trainedModel X Y).class_prior Xp
      (trainedModel X Y).likelihood).1 } : NaiveBayes) = trainedModel X Y
  rw [h]


/-! ### Characterising `max(class_probs, key=class_probs.get)` -/

theorem argmax_map_spec (f : Int → ℚ) :
    ∀ (u : List Int) (c0 : Int) (v0 : ℚ),
      (argmaxGo c0 v0 (u.map (fun c => (c, f c))) = c0 ∧ ∀ c ∈ u, f c ≤ v0) ∨
      (∃ u1 lab u2, u = u1 ++ lab :: u2 ∧
        argmaxGo c0 v0 (u.map (fun c => (c, f c))) = lab ∧ v0 < f lab ∧
        (∀ c ∈ u1, f c < f lab) ∧ (∀ c ∈ u2, f c ≤ f lab)) := by
  intro u
  induction u with
  | nil => intro c0 v0; left; exact ⟨rfl, by simp⟩
  | cons a u2 ih =>
    intro c0 v0
    by_cases h : v0 < f a
    · have hgo : argmaxGo c0 v0 ((a :: u2).map (fun c => (c, f c))) =
          argmaxGo a (f a) (u2.map (fun c => (c, f c))) := by
        simp [argmaxGo, h]
      rcases ih a (f a) with ⟨heq, hle⟩ | ⟨w1, lab, w2, hsplit, heq, hlt, hall1, hall2⟩
      · right
        refine ⟨[], a, u2, by simp, by rw [hgo, heq], h, by simp, hle⟩
      · right
        refine ⟨a :: w1, lab, w2, by simp [hsplit], by rw [hgo, heq],
          lt_trans h hlt, ?_, hall2⟩
        intro c hc
        rcases List.mem_cons.mp hc with hc | hc
        · exact hc ▸ hlt
        · exact hall1 c hc
    · have hgo : argmaxGo c0 v0 ((a :: u2).map (fun c => (c, f c))) =
          argmaxGo c0 v0 (u2.map (fun c => (c, f c))) := by
        simp [argmaxGo, h]
      rcases ih c0 v0 with ⟨heq, hle⟩ | ⟨w1, lab, w2, hsplit, heq, hlt, hall1, hall2⟩
      · left
        refine ⟨by rw [hgo, heq], ?_⟩
        intro c hc
        rcases List.mem_cons.mp hc with hc | hc
        · exact hc ▸ (not_lt.mp h)
        · exact hle c hc
      · right
        refine ⟨a :: w1, lab, w2, by simp [hsplit], by rw [hgo, heq], hlt, ?_, hall2⟩
        intro c hc
        rcases List.mem_cons.mp hc with hc | hc
        · exact hc ▸ (lt_of_le_of_lt (not_lt.mp h) hlt)
        · exact hall1 c hc

/-- Python's `max` over the scores dict picks the first key reaching the
maximal value: everything before it scores strictly less, everything scores
at most it. -/
theorem firstArgmax_map_spec (f : Int → ℚ) (u : List Int) (hne : u ≠ []) :
    ∃ u1 lab u2, u = u1 ++ lab :: u2 ∧
      firstArgmax (u.map (fun c => (c, f c))) = .ok lab ∧
      (∀ c ∈ u1, f c < f lab) ∧ (∀ c ∈ u, f c ≤ f lab) := by
  cases u with
  | nil => exact absurd rfl hne
  | cons a u2 =>
    have hfa : firstArgmax ((a :: u2).map (fun c => (c, f c))) =
        .ok (argmaxGo a (f a) (u2.map (fun c => (c, f c)))) := rfl
    rcases argmax_map_spec f u2 a (f a) with ⟨heq, hle⟩ |
      ⟨w1, lab, w2, hsplit, heq, hlt, hall1, hall2⟩
    · refine ⟨[], a, u2, by simp, by rw [hfa, heq], by simp, ?_⟩
      intro c hc
      rcases List.mem_cons.mp hc with hc | hc
      · exact hc ▸ le_refl _
      · exact hle c hc
    · refine ⟨a :: w1, lab, w2, by simp [hsplit], by rw [hfa, heq], ?_, ?_⟩
      · intro c hc
        rcases List.mem_cons.mp hc with hc | hc
        · exact hc ▸ hlt
        · exact hall1 c hc
      · intro c hc
        rcases List.mem_cons.mp hc with hc | hc
        · exact hc ▸ le_of_lt hlt
        · rw [hsplit] at hc
          rcases List.mem_append.mp hc with hc | hc
          · exact le_of_lt (hall1 c hc)
          · rcases List.mem_cons.mp hc with hc | hc
            · exact hc ▸ le_refl _
            · exact hall2 c hc

/-! ### Single-row prediction on a trained model -/

theorem trainedModel_prior_cond (X : List (List Nat)) (Y : List Int) (x : List Nat)
    (hx : x.length = X.headI.length) :
    ∀ p ∈ (trainedModel X Y).class_prior,
      ∃ es, dictFind (trainedModel X Y).likelihood p.1 = some ⟨es, false⟩ ∧
        ∀ w ∈ List.range x.length, 0 < x.getD w 0 →
          dictFind es w = some (likOf X Y X.headI.length p.1 w) := by
  intro p hp
  rcases List.mem_map.mp hp with ⟨c, hc, hcp⟩
  refine ⟨(List.range X.headI.length).map
    (fun w => (w, likOf X Y X.headI.length c w)), ?_, ?_⟩
  · have := dictFind_map_self (fun c => targetInner X Y X.headI.length c) (npUnique Y)
      (npUnique_nodup Y) c hc
    rw [← hcp]
    simpa [targetInner] using this
  · intro w hw _
    have hwV : w ∈ List.range X.headI.length := by
      rw [List.mem_range] at hw ⊢
      omega
    have := dictFind_map_nat_self (fun w => likOf X Y X.headI.length c w)
      (List.range X.headI.length) (List.nodup_range _) w hwV
    rw [← hcp]
    exact this

theorem classProbs_trained (X : List (List Nat)) (Y : List Int) (x : List Nat)
    (hx : x.length = X.headI.length) :
    classProbsLoop x (trainedModel X Y).class_prior (trainedModel X Y).likelihood =
      ((trainedModel X Y).likelihood,
        .ok ((npUnique Y).map (fun c => (c, qScore X Y X.headI.length x c)))) := by
  rw [classProbsLoop_eval x (fun c w => likOf X Y X.headI.length c w)
    (trainedModel X Y).class_prior (trainedModel X Y).likelihood
    (trainedModel_prior_cond X Y x hx)]
  have hcp : (trainedModel X Y).class_prior =
      (npUnique Y).map (fun c => (c, priorOf Y c)) := rfl
  rw [hcp, List.map_map]
  rfl

/-- On a trained model, a single-row `predict` returns the first class of
the class list attaining the maximal score, and does not touch the state. -/
theorem predict_trained_single (X : List (List Nat)) (Y : List Int) (x : List Nat)
    (hY : Y ≠ []) (hx : x.length = X.headI.length) :
    ∃ lab u1 u2, npUnique Y = u1 ++ lab :: u2 ∧
      (trainedModel X Y).predict [x] = (trainedModel X Y, .ok [lab]) ∧
      (∀ c ∈ u1, qScore X Y X.headI.length x c < qScore X Y X.headI.length x lab) ∧
      (∀ c ∈ npUnique Y, qScore X Y X.headI.length x c ≤ qScore X Y X.headI.length x lab) := by
  have hne : npUnique Y ≠ [] := by
    rw [Ne, npUnique_eq_nil_iff]
    exact hY
  obtain ⟨u1, lab, u2, hsplit, hfa, hlt, hle⟩ :=
    firstArgmax_map_spec (fun c => qScore X Y X.headI.length x c) (npUnique Y) hne
  refine ⟨lab, u1, u2, hsplit, ?_, hlt, hle⟩
  have hcp := classProbs_trained X Y x hx
  have hloop : predictLoop (trainedModel X Y).class_prior [x]
      (trainedModel X Y).likelihood = ((trainedModel X Y).likelihood, .ok [lab]) := by
    simp only [predictLoop, hcp, hfa]
  simp only [NaiveBayes.predict, hloop]


/-! ### Product-space scores versus log-space scores -/

theorem list_log_prod (l : List ℚ) (h : ∀ a ∈ l, 0 < a) :
    Real.log ((l.prod : ℚ) : ℝ) = (l.map (fun a => Real.log ((a : ℚ) : ℝ))).sum := by
  induction l with
  | nil => simp
  | cons a l2 ih =>
    have ha : (0 : ℝ) < ((a : ℚ) : ℝ) := by exact_mod_cast h a (by simp)
    have hprod : (0 : ℚ) < l2.prod := List.prod_pos (fun b hb => h b (by simp [hb]))
    have hprodR : (0 : ℝ) < ((l2.prod : ℚ) : ℝ) := by exact_mod_cast hprod
    have hcast : ((List.prod (a :: l2) : ℚ) : ℝ) = ((a : ℚ) : ℝ) * ((l2.prod : ℚ) : ℝ) := by
      push_cast
      simp
    rw [hcast, Real.log_mul (ne_of_gt ha) (ne_of_gt hprodR), List.map_cons, List.sum_cons,
      ih (fun b hb => h b (by simp [hb]))]

theorem qScore_pos (X : List (List Nat)) (Y : List Int) (x : List Nat) (c : Int)
    (hc : c ∈ npUnique Y) (hx : x.length = X.headI.length) :
    0 < qScore X Y X.headI.length x c := by
  apply mul_pos (priorOf_pos hc).1
  apply List.prod_pos
  intro b hb
  rcases List.mem_map.mp hb with ⟨w, hw, hwb⟩
  have hwx : w < x.length := by
    have := List.mem_range.mp (List.mem_filter.mp hw).1
    exact this
  have hV : 1 ≤ X.headI.length := by omega
  rw [← hwb]
  exact likOf_pos X Y X.headI.length c w hV

theorem qScore_log (X : List (List Nat)) (Y : List Int) (x : List Nat) (c : Int)
    (hc : c ∈ npUnique Y) (hx : x.length = X.headI.length) :
    Real.log ((qScore X Y X.headI.length x c : ℚ) : ℝ) =
      Real.log ((priorOf Y c : ℚ) : ℝ) +
        ((present x).map
          (fun w => Real.log ((likOf X Y X.headI.length c w : ℚ) : ℝ))).sum := by
  have hprior : (0 : ℝ) < ((priorOf Y c : ℚ) : ℝ) := by exact_mod_cast (priorOf_pos hc).1
  have hfac : ∀ a ∈ (present x).map (fun w => likOf X Y X.headI.length c w), 0 < a := by
    intro a ha
    rcases List.mem_map.mp ha with ⟨w, hw, hwa⟩
    have hwx : w < x.length := List.mem_range.mp (List.mem_filter.mp hw).1
    have hV : 1 ≤ X.headI.length := by omega
    rw [← hwa]
    exact likOf_pos X Y X.headI.length c w hV
  have hprodpos : (0 : ℚ) < ((present x).map (fun w => likOf X Y X.headI.length c w)).prod :=
    List.prod_pos hfac
  have hprodR : (0 : ℝ) <
      ((((present x).map (fun w => likOf X Y X.headI.length c w)).prod : ℚ) : ℝ) := by
    exact_mod_cast hprodpos
  have hcast : ((qScore X Y X.headI.length x c : ℚ) : ℝ) =
      ((priorOf Y c : ℚ) : ℝ) *
        ((((present x).map (fun w => likOf X Y X.headI.length c w)).prod : ℚ) : ℝ) := by
    unfold qScore
    push_cast
    ring
  rw [hcast, Real.log_mul (ne_of_gt hprior) (ne_of_gt hprodR),
    list_log_prod _ hfac, List.map_map]
  rfl


/-! ### Concrete evaluations -/

/-- The model obtained by training a fresh instance on the spec scenario
`featureMatrix = [[2,0],[0,3]]`, `labels = [0,1]`. -/
def demoModel : NaiveBayes :=
  { class_prior := [(0, 1/2), (1, 1/2)],
    likelihood := [(0, ⟨[(0, 3/4), (1, 1/4)], false⟩), (1, ⟨[(0, 1/5), (1, 4/5)], false⟩)],
    classes := [0, 1],
    class_word_counts := [(0, 2), (1, 3)],
    vocab_size := 2 }

theorem eval_train_demo :
    NaiveBayes.init.train [[2,0],[0,3]] [0,1] = .ok demoModel := by
  norm_num [demoModel, NaiveBayes.train, NaiveBayes.init, npUnique, insertUnique, trainClass,
    classSlice, sliceTotal, rawCount, likSetItem, dictFind, dictSet, List.range_succ,
    List.filterMap_cons, Function.comp_def, List.getD]

/-- The model obtained by training a fresh instance on `[[5],[5]]`, `[1,1]`
(a single class `1`). -/
def staleDemoModel : NaiveBayes :=
  { class_prior := [(1, 1)],
    likelihood := [(1, ⟨[(0, 1)], false⟩)],
    classes := [1],
    class_word_counts := [(1, 10)],
    vocab_size := 1 }

theorem eval_train_stale :
    NaiveBayes.init.train [[5],[5]] [1,1] = .ok staleDemoModel := by
  norm_num [staleDemoModel, NaiveBayes.train, NaiveBayes.init, npUnique, insertUnique,
    trainClass, classSlice, sliceTotal, rawCount, likSetItem, dictFind, dictSet,
    List.range_succ, List.filterMap_cons, Function.comp_def, List.getD]

/-! ### The claims -/

/-- C2: training on `[[2,0],[0,3]]` with labels `[0,1]` (V = 2) yields
Class Prior `{0: 1/2, 1: 1/2}`, Class Term Total `{0: 2, 1: 3}`,
Class Term Likelihood `{0: {0: 3/4, 1: 1/4}, 1: {0: 1/5, 1: 4/5}}`, and
predicting the single row `[1,0]` against this model returns label 0. -/
theorem claim_C2_concrete_scenario :
    NaiveBayes.init.train [[2,0],[0,3]] [0,1] = .ok demoModel ∧
    (demoModel.predict [[1,0]]).2 = .ok [0] := by
  refine ⟨eval_train_demo, ?_⟩
  norm_num [demoModel, NaiveBayes.predict, predictLoop, classProbsLoop, scoreLoop,
    likGetItem, dictFind, firstArgmax, argmaxGo, List.range_succ, List.getD]

/-- C6 (counterexample): training a fresh model on `[[5],[5]]`, `[1,1]` and
then retraining on `[[0]]`, `[0]` does not replace the prior state: the
result differs from a model trained only on `[[0]]`, `[0]`, and the stale
class 1 even wins the prediction on row `[1]` (it comes first in the
`class_prior` iteration order and ties the score), while the freshly
trained model predicts 0. -/
theorem claim_C6_counterexample :
    ((NaiveBayes.init.train [[5],[5]] [1,1]).bind (fun st => st.train [[0]] [0]) ≠
      NaiveBayes.init.train [[0]] [0]) ∧
    (((NaiveBayes.init.train [[5],[5]] [1,1]).bind (fun st => st.train [[0]] [0])).map
      (fun st => (st.predict [[1]]).2) = .ok (.ok [1])) ∧
    ((NaiveBayes.init.train [[0]] [0]).map (fun st => (st.predict [[1]]).2) =
      .ok (.ok [0])) := by
  rw [eval_train_stale]
  norm_num [staleDemoModel, NaiveBayes.train, NaiveBayes.init, npUnique, insertUnique,
    trainClass, classSlice, sliceTotal, rawCount, likSetItem, dictFind, dictSet,
    List.range_succ, List.filterMap_cons, Function.comp_def, List.getD, Except.bind,
    Except.map, NaiveBayes.predict, predictLoop, classProbsLoop, scoreLoop, likGetItem,
    firstArgmax, argmaxGo]

/-- C7 (counterexample): `train` completes without any error on a matrix
with V = 0 (the claim says it must fail with `InvalidInputError`), and
`predict` on the trained demo model silently processes a row of length 1
against vocabulary size 2 and returns a label (the claim says it must fail
with `InvalidInputError`). -/
theorem claim_C7_counterexample :
    NaiveBayes.init.train [[],[]] [0,1] = .ok
      { class_prior := [(0, 1/2), (1, 1/2)],
        likelihood := [(0, ⟨[], false⟩), (1, ⟨[], false⟩)],
        classes := [0, 1],
        class_word_counts := [(0, 0), (1, 0)],
        vocab_size := 0 } ∧
    (demoModel.predict [[1]]).2 = .ok [0] := by
  constructor
  · norm_num [NaiveBayes.train, NaiveBayes.init, npUnique, insertUnique, trainClass,
      classSlice, sliceTotal, rawCount, likSetItem, dictFind, dictSet, List.range_succ,
      List.filterMap_cons, Function.comp_def, List.getD]
  · norm_num [demoModel, NaiveBayes.predict, predictLoop, classProbsLoop, scoreLoop,
      likGetItem, dictFind, firstArgmax, argmaxGo, List.range_succ, List.getD]

/-- C7 (amended): the code raises no `InvalidInputError` (no such error
exists).  A row/label count mismatch triggers numpy's `IndexError` from
boolean-mask indexing as soon as at least one class exists; a matrix with
V = 0 trains without error; `predict` silently processes a too-short row,
and raises a `KeyError` (not `InvalidInputError`) on a too-long row whose
extra positions hold a positive count. -/
theorem claim_C7_no_invalid_input_error (X : List (List Nat)) (Y : List Int)
    (hY : Y ≠ []) (hlen : X.length ≠ Y.length) :
    NaiveBayes.init.train X Y = .error PyErr.indexError ∧
    NaiveBayes.init.train [[],[]] [0,1] = .ok (trainedModel [[],[]] [0,1]) ∧
    (demoModel.predict [[1]]).2 = .ok [0] ∧
    (demoModel.predict [[1,0,7]]).2 = .error PyErr.keyError := by
  refine ⟨?_, ?_, ?_, ?_⟩
  · have hcls : npUnique Y ≠ [] := by
      rw [Ne, npUnique_eq_nil_iff]
      exact hY
    simp only [NaiveBayes.train, NaiveBayes.init]
    rw [if_pos ⟨hcls, hlen⟩]
  · exact train_init_eq [[],[]] [0,1] (by norm_num)
  · norm_num [demoModel, NaiveBayes.predict, predictLoop, classProbsLoop, scoreLoop,
      likGetItem, dictFind, firstArgmax, argmaxGo, List.range_succ, List.getD]
  · norm_num [demoModel, NaiveBayes.predict, predictLoop, classProbsLoop, scoreLoop,
      likGetItem, dictFind, firstArgmax, argmaxGo, List.range_succ, List.getD]

theorem claim_C7_no_invalid_input_error_witness :
    NaiveBayes.init.train [[1],[2]] [0] = .error PyErr.indexError ∧
    NaiveBayes.init.train [[],[]] [0,1] = .ok (trainedModel [[],[]] [0,1]) ∧
    (demoModel.predict [[1]]).2 = .ok [0] ∧
    (demoModel.predict [[1,0,7]]).2 = .error PyErr.keyError :=
  claim_C7_no_invalid_input_error [[1],[2]] [0] (by simp) (by simp)

/-- C8 (counterexample): `predict` on a never-trained model does not fail
with `UntrainedModelError` for every input: on the empty input it succeeds
with the empty output, and on a non-empty input the error it raises is the
builtin `ValueError` of `max` applied to the empty score dict (no
`UntrainedModelError` exists in the code). -/
theorem claim_C8_counterexample :
    NaiveBayes.init.predict [] = (NaiveBayes.init, .ok []) ∧
    NaiveBayes.init.predict [[3]] = (NaiveBayes.init, .error PyErr.valueError) :=
  ⟨rfl, predict_empty_prior NaiveBayes.init rfl [[3]] (by simp)⟩

/-- C8 (amended): on a model on which `train` was never invoked, `predict`
returns the empty label sequence on the empty input and fails with the
builtin `ValueError` (from `max` of the empty score dict) on every
non-empty input; the state is left untouched.  The code defines no
`UntrainedModelError`. -/
theorem claim_C8_untrained_behaviour (Xp : List (List Nat)) (hXp : Xp ≠ []) :
    NaiveBayes.init.predict Xp = (NaiveBayes.init, .error PyErr.valueError) ∧
    NaiveBayes.init.predict [] = (NaiveBayes.init, .ok []) :=
  ⟨predict_empty_prior NaiveBayes.init rfl Xp hXp, rfl⟩

theorem claim_C8_untrained_behaviour_witness :
    NaiveBayes.init.predict [[0, 4]] = (NaiveBayes.init, .error PyErr.valueError) ∧
    NaiveBayes.init.predict [] = (NaiveBayes.init, .ok []) :=
  claim_C8_untrained_behaviour [[0, 4]] (by simp)

/-- C10: training on zero rows and zero labels completes without error and
leaves the model in the initial state, whose Class Set, Class Prior and
Class Term Likelihood are all empty; every subsequent `predict` on a
non-empty input then fails (with the `ValueError` of `max` over the empty
set of classes) rather than returning a label. -/
theorem claim_C10_train_empty (Xp : List (List Nat)) (hXp : Xp ≠ []) :
    NaiveBayes.init.train [] [] = .ok NaiveBayes.init ∧
    NaiveBayes.init.classes = [] ∧
    NaiveBayes.init.class_prior = [] ∧
    NaiveBayes.init.likelihood = [] ∧
    NaiveBayes.init.predict Xp = (NaiveBayes.init, .error PyErr.valueError) :=
  ⟨rfl, rfl, rfl, rfl, predict_empty_prior NaiveBayes.init rfl Xp hXp⟩

theorem claim_C10_train_empty_witness :
    NaiveBayes.init.train [] [] = .ok NaiveBayes.init ∧
    NaiveBayes.init.classes = [] ∧
    NaiveBayes.init.class_prior = [] ∧
    NaiveBayes.init.likelihood = [] ∧
    NaiveBayes.init.predict [[7]] = (NaiveBayes.init, .error PyErr.valueError) :=
  claim_C10_train_empty [[7]] (by simp)


/-- C1: on a trained model, the score of each class multiplies in (i.e.
accumulates the logarithm of, in product space) the stored likelihood of
index `j` exactly once for every `j` with `x[j] > 0` — once per present
index, independent of the magnitude of `x[j]` — and `predict` returns
identical results on two rows of length V with the same set of
strictly-positive positions. -/
theorem claim_C1_presence_only (X : List (List Nat)) (Y : List Int) (st : NaiveBayes)
    (x x2 : List Nat) (hok : NaiveBayes.init.train X Y = .ok st)
    (hx : x.length = st.vocab_size) (hx2 : x2.length = st.vocab_size)
    (hpos : ∀ w, 0 < x.getD w 0 ↔ 0 < x2.getD w 0) :
    (∀ p ∈ st.class_prior,
      scoreLoop x p.1 (List.range x.length) st.likelihood p.2 =
        (st.likelihood,
          .ok (p.2 * ((present x).map (fun w => likOf X Y st.vocab_size p.1 w)).prod))) ∧
    st.predict [x] = st.predict [x2] := by
  have hst := train_init_ok_eq X Y st hok
  subst hst
  have hx' : x.length = X.headI.length := hx
  have hx2' : x2.length = X.headI.length := hx2
  constructor
  · intro p hp
    obtain ⟨es, hfind, hes⟩ := trainedModel_prior_cond X Y x hx' p hp
    exact scoreLoop_eval x p.1 es (fun w => likOf X Y X.headI.length p.1 w)
      (List.range x.length) _ p.2 hfind hes
  · have hpres : present x = present x2 := by
      unfold present
      have hlen : x.length = x2.length := by rw [hx', hx2']
      rw [← hlen]
      apply List.filter_congr
      intro a _
      exact decide_eq_decide.mpr (hpos a)
    have hq : ∀ c, qScore X Y X.headI.length x c = qScore X Y X.headI.length x2 c := by
      intro c
      unfold qScore
      rw [hpres]
    have h1 := classProbs_trained X Y x hx'
    have h2 := classProbs_trained X Y x2 hx2'
    have hmap : (npUnique Y).map (fun c => (c, qScore X Y X.headI.length x c)) =
        (npUnique Y).map (fun c => (c, qScore X Y X.headI.length x2 c)) := by
      apply List.map_congr_left
      intro c _
      rw [hq c]
    rw [hmap] at h1
    simp only [NaiveBayes.predict, predictLoop, h1, h2]

theorem claim_C1_presence_only_witness :
    (∀ p ∈ demoModel.class_prior,
      scoreLoop [1,0] p.1 (List.range ([1,0] : List Nat).length) demoModel.likelihood p.2 =
        (demoModel.likelihood,
          .ok (p.2 * ((present [1,0]).map
            (fun w => likOf [[2,0],[0,3]] [0,1] demoModel.vocab_size p.1 w)).prod))) ∧
    demoModel.predict [[1,0]] = demoModel.predict [[3,0]] :=
  claim_C1_presence_only [[2,0],[0,3]] [0,1] demoModel [1,0] [3,0] eval_train_demo
    rfl rfl (by
      intro w
      rcases w with _ | _ | n <;> simp [List.getD])

/-- C3: a model trained on valid input (labels non-empty, rows all of
length V ≥ 1) has Class Prior values in (0,1] summing exactly to 1 over the
class set, and, for every class, Class Term Likelihood values in (0,1]
summing exactly to 1 over the V vocabulary indices (in exact rational
arithmetic). -/
theorem claim_C3_invariants (X : List (List Nat)) (Y : List Int) (st : NaiveBayes)
    (hok : NaiveBayes.init.train X Y = .ok st) (hY : Y ≠ [])
    (hV : 1 ≤ X.headI.length) (hrect : ∀ r ∈ X, r.length = X.headI.length) :
    (st.class_prior.map Prod.snd).sum = 1 ∧
    (∀ p ∈ st.class_prior, 0 < p.2 ∧ p.2 ≤ 1) ∧
    (∀ q ∈ st.likelihood, (q.2.entries.map Prod.snd).sum = 1 ∧
      ∀ e ∈ q.2.entries, 0 < e.2 ∧ e.2 ≤ 1) := by
  have hst := train_init_ok_eq X Y st hok
  subst hst
  refine ⟨?_, ?_, ?_⟩
  · show ((((npUnique Y).map (fun c => (c, priorOf Y c))).map Prod.snd).sum = 1)
    rw [List.map_map]
    exact priorOf_sum Y hY
  · intro p hp
    rcases List.mem_map.mp hp with ⟨c, hc, hcp⟩
    rw [← hcp]
    exact priorOf_pos hc
  · intro q hq
    rcases List.mem_map.mp hq with ⟨c, hc, hcq⟩
    constructor
    · rw [← hcq]
      show (((List.range X.headI.length).map
        (fun w => (w, likOf X Y X.headI.length c w))).map Prod.snd).sum = 1
      rw [List.map_map]
      exact likOf_sum X Y X.headI.length c hV
        (fun r hr => hrect r (classSlice_mem X Y c r hr))
    · intro e he
      rw [← hcq] at he
      rcases List.mem_map.mp he with ⟨w, hw, hwe⟩
      rw [← hwe]
      exact ⟨likOf_pos X Y X.headI.length c w hV, likOf_le_one X Y X.headI.length c w hV⟩

theorem claim_C3_invariants_witness :
    (demoModel.class_prior.map Prod.snd).sum = 1 ∧
    (∀ p ∈ demoModel.class_prior, 0 < p.2 ∧ p.2 ≤ 1) ∧
    (∀ q ∈ demoModel.likelihood, (q.2.entries.map Prod.snd).sum = 1 ∧
      ∀ e ∈ q.2.entries, 0 < e.2 ∧ e.2 ≤ 1) :=
  claim_C3_invariants [[2,0],[0,3]] [0,1] demoModel eval_train_demo (by simp)
    (by norm_num) (by norm_num)

/-- C4: for every class of a trained model and every vocabulary index
`j < V`, the stored Class Term Total is the total count of the class slice
and the stored likelihood is `(r(c,j) + 1) / (Class Term Total[c] + V)`;
it is never 0, and it equals `1 / (Class Term Total[c] + V)` when
`r(c,j) = 0`. -/
theorem claim_C4_laplace (X : List (List Nat)) (Y : List Int) (st : NaiveBayes)
    (hok : NaiveBayes.init.train X Y = .ok st) (c : Int) (j : Nat)
    (hc : c ∈ st.classes) (hj : j < st.vocab_size) :
    dictFind st.class_word_counts c = some (classTermTotal X Y c) ∧
    dictFind st.likelihood c = some (targetInner X Y st.vocab_size c) ∧
    dictFind (targetInner X Y st.vocab_size c).entries j =
      some (likOf X Y st.vocab_size c j) ∧
    likOf X Y st.vocab_size c j =
      ((rawCount (classSlice X Y c) j : ℚ) + 1) /
        ((classTermTotal X Y c : ℚ) + (st.vocab_size : ℚ)) ∧
    likOf X Y st.vocab_size c j ≠ 0 ∧
    (rawCount (classSlice X Y c) j = 0 →
      likOf X Y st.vocab_size c j =
        1 / ((classTermTotal X Y c : ℚ) + (st.vocab_size : ℚ))) := by
  have hst := train_init_ok_eq X Y st hok
  subst hst
  have hc' : c ∈ npUnique Y := hc
  have hj' : j < X.headI.length := hj
  have hV : 1 ≤ X.headI.length := by omega
  refine ⟨?_, ?_, ?_, rfl, ?_, ?_⟩
  · exact dictFind_map_self (fun c => classTermTotal X Y c) (npUnique Y)
      (npUnique_nodup Y) c hc'
  · exact dictFind_map_self (fun c => targetInner X Y X.headI.length c) (npUnique Y)
      (npUnique_nodup Y) c hc'
  · exact dictFind_map_nat_self (fun w => likOf X Y X.headI.length c w)
      (List.range X.headI.length) (List.nodup_range _) j (List.mem_range.mpr hj')
  · exact ne_of_gt (likOf_pos X Y X.headI.length c j hV)
  · intro hzero
    unfold likOf
    rw [hzero]
    norm_num

theorem claim_C4_laplace_witness :
    dictFind demoModel.class_word_counts 0 =
      some (classTermTotal [[2,0],[0,3]] [0,1] 0) ∧
    dictFind demoModel.likelihood 0 =
      some (targetInner [[2,0],[0,3]] [0,1] demoModel.vocab_size 0) ∧
    dictFind (targetInner [[2,0],[0,3]] [0,1] demoModel.vocab_size 0).entries 1 =
      some (likOf [[2,0],[0,3]] [0,1] demoModel.vocab_size 0 1) ∧
    likOf [[2,0],[0,3]] [0,1] demoModel.vocab_size 0 1 =
      ((rawCount (classSlice [[2,0],[0,3]] [0,1] 0) 1 : ℚ) + 1) /
        ((classTermTotal [[2,0],[0,3]] [0,1] 0 : ℚ) + (demoModel.vocab_size : ℚ)) ∧
    likOf [[2,0],[0,3]] [0,1] demoModel.vocab_size 0 1 ≠ 0 ∧
    (rawCount (classSlice [[2,0],[0,3]] [0,1] 0) 1 = 0 →
      likOf [[2,0],[0,3]] [0,1] demoModel.vocab_size 0 1 =
        1 / ((classTermTotal [[2,0],[0,3]] [0,1] 0 : ℚ) + (demoModel.vocab_size : ℚ))) :=
  claim_C4_laplace [[2,0],[0,3]] [0,1] demoModel eval_train_demo 0 1 (by decide) (by decide)

/-- C5: on a trained model, `predict` of a row of length V returns the
class whose log-space score — the logarithm of the class prior plus the sum
of the logarithms of the stored likelihoods of the strictly-positive
positions — is maximal, and on ties the one coming first in the iteration
order of the class list built at training time from the distinct labels. -/
theorem claim_C5_argmax_logspace (X : List (List Nat)) (Y : List Int) (st : NaiveBayes)
    (x : List Nat) (hok : NaiveBayes.init.train X Y = .ok st) (hY : Y ≠ [])
    (hx : x.length = st.vocab_size) :
    ∃ lab u1 u2, st.predict [x] = (st, .ok [lab]) ∧ st.classes = u1 ++ lab :: u2 ∧
      (∀ c ∈ u1,
        Real.log ((priorOf Y c : ℚ) : ℝ) +
          ((present x).map
            (fun w => Real.log ((likOf X Y st.vocab_size c w : ℚ) : ℝ))).sum <
        Real.log ((priorOf Y lab : ℚ) : ℝ) +
          ((present x).map
            (fun w => Real.log ((likOf X Y st.vocab_size lab w : ℚ) : ℝ))).sum) ∧
      (∀ c ∈ st.classes,
        Real.log ((priorOf Y c : ℚ) : ℝ) +
          ((present x).map
            (fun w => Real.log ((likOf X Y st.vocab_size c w : ℚ) : ℝ))).sum ≤
        Real.log ((priorOf Y lab : ℚ) : ℝ) +
          ((present x).map
            (fun w => Real.log ((likOf X Y st.vocab_size lab w : ℚ) : ℝ))).sum) := by
  have hst := train_init_ok_eq X Y st hok
  subst hst
  have hx' : x.length = X.headI.length := hx
  obtain ⟨lab, u1, u2, hsplit, hpred, hlt, hle⟩ := predict_trained_single X Y x hY hx'
  have hlab : lab ∈ npUnique Y := by
    rw [hsplit]
    simp
  have hVr : (trainedModel X Y).vocab_size = X.headI.length := rfl
  simp only [hVr]
  refine ⟨lab, u1, u2, hpred, hsplit, ?_, ?_⟩
  · intro c hcu
    have hc : c ∈ npUnique Y := by
      rw [hsplit]
      simp [hcu]
    rw [← qScore_log X Y x c hc hx', ← qScore_log X Y x lab hlab hx']
    exact Real.log_lt_log (by exact_mod_cast qScore_pos X Y x c hc hx')
      (by exact_mod_cast hlt c hcu)
  · intro c hc
    rw [← qScore_log X Y x c hc hx', ← qScore_log X Y x lab hlab hx']
    rw [Real.log_le_log_iff (by exact_mod_cast qScore_pos X Y x c hc hx')
      (by exact_mod_cast qScore_pos X Y x lab hlab hx')]
    exact_mod_cast hle c hc

theorem claim_C5_argmax_logspace_witness :
    ∃ lab u1 u2, demoModel.predict [[1,0]] = (demoModel, .ok [lab]) ∧
      demoModel.classes = u1 ++ lab :: u2 ∧
      (∀ c ∈ u1,
        Real.log ((priorOf [0,1] c : ℚ) : ℝ) +
          ((present [1,0]).map
            (fun w => Real.log ((likOf [[2,0],[0,3]] [0,1] demoModel.vocab_size c w : ℚ) : ℝ))).sum <
        Real.log ((priorOf [0,1] lab : ℚ) : ℝ) +
          ((present [1,0]).map
            (fun w => Real.log ((likOf [[2,0],[0,3]] [0,1] demoModel.vocab_size lab w : ℚ) : ℝ))).sum) ∧
      (∀ c ∈ demoModel.classes,
        Real.log ((priorOf [0,1] c : ℚ) : ℝ) +
          ((present [1,0]).map
            (fun w => Real.log ((likOf [[2,0],[0,3]] [0,1] demoModel.vocab_size c w : ℚ) : ℝ))).sum ≤
        Real.log ((priorOf [0,1] lab : ℚ) : ℝ) +
          ((present [1,0]).map
            (fun w => Real.log ((likOf [[2,0],[0,3]] [0,1] demoModel.vocab_size lab w : ℚ) : ℝ))).sum) :=
  claim_C5_argmax_logspace [[2,0],[0,3]] [0,1] demoModel [1,0] eval_train_demo
    (by simp) rfl

/-- C9: `predict` on a trained model leaves the entire model state
unchanged (its `likelihood` defaultdict is read but never extended, and no
other attribute is written), for every input matrix; consequently calling
`predict` twice in a row on the same input yields the identical result. -/
theorem claim_C9_predict_pure (X : List (List Nat)) (Y : List Int) (st : NaiveBayes)
    (hok : NaiveBayes.init.train X Y = .ok st) (Xp : List (List Nat)) :
    (st.predict Xp).1 = st ∧ (st.predict Xp).1.predict Xp = st.predict Xp := by
  have hst := train_init_ok_eq X Y st hok
  subst hst
  have h := predict_trained_state X Y Xp
  exact ⟨h, by rw [h]⟩

theorem claim_C9_predict_pure_witness :
    (demoModel.predict [[1,0],[0,1]]).1 = demoModel ∧
    (demoModel.predict [[1,0],[0,1]]).1.predict [[1,0],[0,1]] =
      demoModel.predict [[1,0],[0,1]] :=
  claim_C9_predict_pure [[2,0],[0,3]] [0,1] demoModel eval_train_demo [[1,0],[0,1]]


/-! ### Retraining over an existing key set -/

theorem trainClass_found (X : List (List Nat)) (Y : List Int) (V : Nat)
    (cwc : List (Int × Nat)) (lik : List (Int × InnerDict)) (c : Int)
    (iold : Nat → ℚ) (b : Bool)
    (hl : dictFind lik c = some ⟨(List.range V).map (fun w => (w, iold w)), b⟩) :
    trainClass X Y V (cwc, lik) c =
      (dictSet cwc c (classTermTotal X Y c), dictSet lik c (targetInner X Y V c)) := by
  have hfold := likSetItem_fold_found c
    (fun w => ((rawCount (classSlice X Y c) w : ℚ) + 1)) (List.range V) lik
    ((List.range V).map (fun w => (w, iold w))) b hl
  have hinner : List.foldl
      (fun es w => dictSet es w ((rawCount (classSlice X Y c) w : ℚ) + 1))
      ((List.range V).map (fun w => (w, iold w))) (List.range V) =
      (List.range V).map (fun w => (w, ((rawCount (classSlice X Y c) w : ℚ) + 1))) :=
    foldl_dictSet_update _ iold (List.range V) (List.nodup_range V)
  simp only [trainClass, hfold, hinner]
  rw [dictFind_dictSet_self, dictSet_dictSet_same]
  simp only [Option.getD_some, List.map_map]
  simp [targetInner, likOf, classTermTotal, Function.comp_def]

theorem likSetItem_cons_ne (c c2 : Int) (i : InnerDict) (likm : List (Int × InnerDict))
    (w : Nat) (v : ℚ) (hne : c ≠ c2) :
    likSetItem ((c, i) :: likm) c2 w v = (c, i) :: likSetItem likm c2 w v := by
  unfold likSetItem
  rw [dictFind_cons_ne likm c c2 i hne]
  cases dictFind likm c2 with
  | some inner => simp [dictSet_cons_ne likm c c2 i _ hne]
  | none => simp

theorem foldl_likSetItem_cons_ne (c c2 : Int) (i : InnerDict) (f : Nat → ℚ)
    (hne : c ≠ c2) :
    ∀ (ws : List Nat) (likm : List (Int × InnerDict)),
      List.foldl (fun l w => likSetItem l c2 w (f w)) ((c, i) :: likm) ws =
        (c, i) :: List.foldl (fun l w => likSetItem l c2 w (f w)) likm ws := by
  intro ws
  induction ws with
  | nil => intro likm; rfl
  | cons w ws2 ih =>
    intro likm
    rw [List.foldl_cons, likSetItem_cons_ne c c2 i likm w (f w) hne, List.foldl_cons, ih]

theorem trainClass_cons_ne (X : List (List Nat)) (Y : List Int) (V : Nat)
    (c c2 : Int) (t : Nat) (i : InnerDict)
    (cwcm : List (Int × Nat)) (likm : List (Int × InnerDict)) (hne : c ≠ c2) :
    trainClass X Y V ((c, t) :: cwcm, (c, i) :: likm) c2 =
      ((c, t) :: (trainClass X Y V (cwcm, likm) c2).1,
       (c, i) :: (trainClass X Y V (cwcm, likm) c2).2) := by
  simp only [trainClass]
  rw [dictSet_cons_ne cwcm c c2 t _ hne]
  rw [foldl_likSetItem_cons_ne c c2 i _ hne]
  rw [dictFind_cons_ne _ c c2 i hne]
  rw [dictSet_cons_ne _ c c2 i _ hne]

theorem foldl_trainClass_cons_ne (X : List (List Nat)) (Y : List Int) (V : Nat)
    (c : Int) (t : Nat) (i : InnerDict) :
    ∀ (cs : List Int) (cwcm : List (Int × Nat)) (likm : List (Int × InnerDict)),
      (∀ a ∈ cs, a ≠ c) →
      List.foldl (trainClass X Y V) ((c, t) :: cwcm, (c, i) :: likm) cs =
        ((c, t) :: (List.foldl (trainClass X Y V) (cwcm, likm) cs).1,
         (c, i) :: (List.foldl (trainClass X Y V) (cwcm, likm) cs).2) := by
  intro cs
  induction cs with
  | nil => intro cwcm likm _; rfl
  | cons a cs2 ih =>
    intro cwcm likm hne
    have hca : c ≠ a := fun hEq => (hne a (by simp)) hEq.symm
    rw [List.foldl_cons, trainClass_cons_ne X Y V c a t i cwcm likm hca, List.foldl_cons]
    exact ih (trainClass X Y V (cwcm, likm) a).1 (trainClass X Y V (cwcm, likm) a).2
      (fun b hb => hne b (by simp [hb]))

theorem trainFold_update (X : List (List Nat)) (Y : List Int) (V : Nat)
    (told : Int → Nat) (iold : Int → Nat → ℚ) :
    ∀ (cs : List Int), cs.Nodup →
      List.foldl (trainClass X Y V)
        (cs.map (fun c => (c, told c)),
         cs.map (fun c =>
           (c, (⟨(List.range V).map (fun w => (w, iold c w)), false⟩ : InnerDict)))) cs =
      (cs.map (fun c => (c, classTermTotal X Y c)),
       cs.map (fun c => (c, targetInner X Y V c))) := by
  intro cs
  induction cs with
  | nil => intro _; rfl
  | cons c cs2 ih =>
    intro hnd
    have hne : ∀ a ∈ cs2, a ≠ c := fun a ha hEq =>
      (List.nodup_cons.mp hnd).1 (hEq ▸ ha)
    rw [List.foldl_cons]
    rw [trainClass_found X Y V _ _ c (iold c) false (by simp [dictFind])]
    have hset1 : dictSet ((c, told c) :: cs2.map (fun a => (a, told a))) c
        (classTermTotal X Y c) = (c, classTermTotal X Y c) :: cs2.map (fun a => (a, told a)) := by
      simp [dictSet]
    have hset2 : dictSet ((c, (⟨(List.range V).map (fun w => (w, iold c w)), false⟩ : InnerDict)) ::
        cs2.map (fun a => (a, (⟨(List.range V).map (fun w => (w, iold a w)), false⟩ : InnerDict))))
        c (targetInner X Y V c) = (c, targetInner X Y V c) ::
        cs2.map (fun a => (a, (⟨(List.range V).map (fun w => (w, iold a w)), false⟩ : InnerDict))) := by
      simp [dictSet]
    simp only [List.map_cons, hset1, hset2]
    rw [foldl_trainClass_cons_ne X Y V c _ _ cs2 _ _ hne]
    rw [ih (List.nodup_cons.mp hnd).2]

/-- C6 (amended theorem): when the second training run has the same set of
distinct labels as the first and the same vocabulary size, retraining does
fully replace the prior state — the result equals training a fresh
instance. -/
theorem claim_C6_retrain_replaces (X1 X2 : List (List Nat)) (Y1 Y2 : List Int)
    (hcls : npUnique Y1 = npUnique Y2) (hV : X1.headI.length = X2.headI.length)
    (h1 : X1.length = Y1.length) (h2 : X2.length = Y2.length) :
    (NaiveBayes.init.train X1 Y1).bind (fun st => st.train X2 Y2) =
      NaiveBayes.init.train X2 Y2 := by
  rw [train_init_eq X1 Y1 (fun h => h.2 h1), train_init_eq X2 Y2 (fun h => h.2 h2)]
  show (trainedModel X1 Y1).train X2 Y2 = .ok (trainedModel X2 Y2)
  have hguard : ¬(npUnique Y2 ≠ [] ∧ X2.length ≠ Y2.length) := fun h => h.2 h2
  have hstart0 : (trainedModel X1 Y1).class_prior =
      (npUnique Y2).map (fun c => (c, priorOf Y1 c)) := by
    show (npUnique Y1).map _ = _
    rw [hcls]
  have hprior : List.foldl
      (fun m c => dictSet m c ((Y2.countP (fun y => y = c) : ℚ) / (Y2.length : ℚ)))
      (trainedModel X1 Y1).class_prior (npUnique Y2) =
      (npUnique Y2).map (fun c => (c, priorOf Y2 c)) := by
    rw [hstart0]
    exact foldl_dictSet_update (fun c => priorOf Y2 c) (fun c => priorOf Y1 c)
      (npUnique Y2) (npUnique_nodup Y2)
  have hstart1 : (trainedModel X1 Y1).class_word_counts =
      (npUnique Y2).map (fun c => (c, classTermTotal X1 Y1 c)) := by
    show (npUnique Y1).map _ = _
    rw [hcls]
  have hstart2 : (trainedModel X1 Y1).likelihood =
      (npUnique Y2).map (fun c =>
        (c, (⟨(List.range X2.headI.length).map
          (fun w => (w, likOf X1 Y1 X2.headI.length c w)), false⟩ : InnerDict))) := by
    show (npUnique Y1).map (fun c => (c, targetInner X1 Y1 X1.headI.length c)) = _
    rw [hcls, hV]
    rfl
  have hfold : List.foldl (trainClass X2 Y2 X2.headI.length)
      ((trainedModel X1 Y1).class_word_counts, (trainedModel X1 Y1).likelihood)
      (npUnique Y2) =
      ((npUnique Y2).map (fun c => (c, classTermTotal X2 Y2 c)),
       (npUnique Y2).map (fun c => (c, targetInner X2 Y2 X2.headI.length c))) := by
    rw [hstart1, hstart2]
    exact trainFold_update X2 Y2 X2.headI.length (fun c => classTermTotal X1 Y1 c)
      (fun c w => likOf X1 Y1 X2.headI.length c w) (npUnique Y2) (npUnique_nodup Y2)
  simp only [NaiveBayes.train]
  rw [if_neg hguard]
  rw [hprior, hfold]
  rfl

theorem claim_C6_retrain_replaces_witness :
    (NaiveBayes.init.train [[5],[5]] [1,1]).bind (fun st => st.train [[2],[0]] [1,1]) =
      NaiveBayes.init.train [[2],[0]] [1,1] :=
  claim_C6_retrain_replaces [[5],[5]] [[2],[0]] [1,1] [1,1] rfl rfl rfl rfl

end NLP
